import Mathlib

/-!
Verification of the `game-solver` core engine (`src/lib.rs`) and the Nim game
(`crates/games/src/nim/mod.rs`): a shallow embedding of the negamax engine with
alpha-beta pruning and a transposition table, the MTD(f)-style exact-value
solver, the move-score evaluator, and the Nim `Game` implementation, together
with proofs relating the engine to an unpruned reference minimax.
-/

set_option maxHeartbeats 1000000

/-- Reinterpretation of a `u32` value as an `i32` (the Rust `as i32` cast):
the value is reduced mod `2^32` and values at or above `2^31` become negative. -/
def u32_as_i32 (x : Nat) : Int :=
  if x % 2 ^ 32 < 2 ^ 31 then ((x % 2 ^ 32 : Nat) : Int)
  else ((x % 2 ^ 32 : Nat) : Int) - 2 ^ 32

/-- Two's-complement normalization of an integer into the `i32` range
(the result of Rust release-mode wrapping `i32` arithmetic). -/
def wrap32 (x : Int) : Int := (x + 2 ^ 31) % 2 ^ 32 - 2 ^ 31

/-- The `Player` enum from `src/lib.rs`. -/
inductive Player where
  | P1 : Player
  | P2 : Player
deriving DecidableEq

/-- `Player::opposite` from `src/lib.rs`. -/
def Player.opposite : Player → Player
  | Player.P1 => Player.P2
  | Player.P2 => Player.P1

/-- The `Game` trait of `src/lib.rs`, embedded as a structure of operations on
an abstract state type `S` with move type `M`.  `make_move` returns the updated
state together with the `bool` the Rust method returns (the state is returned
unchanged when the move is rejected, matching in-place mutation semantics).
`score` and `max_score` return `Nat` (Rust `u32`); `min_score` returns `Int`
(Rust `i32`); the move iterator is embedded as a `List`. -/
structure GameDef (S M : Type) where
  player : S → Player
  score : S → Nat
  max_score : S → Nat
  min_score : S → Int
  make_move : S → M → S × Bool
  possible_moves : S → List M
  is_winning_move : S → M → Bool
  is_draw : S → Bool

/-- A transposition table over states `S`: the `HashMap<K, i32>` backend of
`src/lib.rs`, embedded extensionally as a partial map. -/
abbrev Table (S : Type) := S → Option Int

/-- A fresh (empty) transposition table. -/
def Table.empty {S : Type} : Table S := fun _ => none

/-- `TranspositionTable::insert` for the hash-map backend. -/
def Table.insert {S : Type} [DecidableEq S] (t : Table S) (s : S) (v : Int) : Table S :=
  fun s2 => if s2 = s then some v else t s2

/-- The move loop of `negamax` in `src/lib.rs` (lines 127-144): iterate over the
remaining moves threading the table and `alpha`; on `score >= beta` return
`beta` (beta cutoff); after exhausting the moves insert the final `alpha` into
the table keyed by the current state and return it.  `rec` is the recursive
evaluation of a child position. -/
def negamaxList {S M : Type} (G : GameDef S M) [DecidableEq S]
    (rec : S → Table S → Int → Int → Option (Int × Table S)) (g : S) :
    List M → Table S → Int → Int → Option (Int × Table S)
  | [], t, alpha, _ => some (alpha, Table.insert t g alpha)
  | m :: ms, t, alpha, beta =>
    match rec (G.make_move g m).1 t (-beta) (-alpha) with
    | none => none
    | some (s, t2) =>
      let score := -s
      if score ≥ beta then some (beta, t2)
      else negamaxList G rec g ms t2 (if score > alpha then score else alpha) beta

/-- `negamax` from `src/lib.rs` (lines 97-145), with an explicit recursion-depth
fuel (`none` models a search that would not return within `fuel` nested calls).
Order of operations follows the source: draw check, immediate-winning-move scan,
transposition-table upper-bound tightening of `beta` (with early `beta` return
on window collapse), then the move loop. -/
def negamax {S M : Type} (G : GameDef S M) [DecidableEq S] :
    Nat → S → Table S → Int → Int → Option (Int × Table S)
  | 0 => fun _ _ _ _ => none
  | fuel + 1 => fun g t alpha beta =>
    if G.is_draw g then some (0, t)
    else
      match (G.possible_moves g).find? (G.is_winning_move g) with
      | some m => some (u32_as_i32 (G.score (G.make_move g m).1), t)
      | none =>
        let mx := (t g).getD (u32_as_i32 (G.max_score g))
        if beta > mx then
          if alpha ≥ mx then some (mx, t)
          else negamaxList G (negamax G fuel) g (G.possible_moves g) t alpha mx
        else negamaxList G (negamax G fuel) g (G.possible_moves g) t alpha beta

/-- The `while alpha < beta` null-window refinement loop of `solve` in
`src/lib.rs` (lines 163-172), with a loop fuel `lf` (`none` models a loop that
would not exit within `lf` iterations; `solve` supplies a provably sufficient
bound). -/
def solveLoop {S M : Type} (G : GameDef S M) [DecidableEq S] (fuel : Nat) :
    Nat → S → Table S → Int → Int → Option (Int × Table S)
  | 0 => fun _ _ _ _ => none
  | lf + 1 => fun g t alpha beta =>
    if alpha < beta then
      let med := alpha + (beta - alpha) / 2
      match negamax G fuel g t med (med + 1) with
      | none => none
      | some (r, t2) =>
        if r ≤ med then solveLoop G fuel lf g t2 alpha r
        else solveLoop G fuel lf g t2 r beta
    else some (alpha, t)

/-- `solve` from `src/lib.rs` (lines 153-175): `alpha` starts at `min_score()`,
`beta` at `max_score() as i32 + 1` (a wrapping `i32` computation), then the
null-window loop runs until the window collapses.  The loop fuel
`(beta - alpha).toNat + 1` is an upper bound on the number of iterations, proved
sufficient below, so the embedding agrees with the unbounded Rust loop whenever
the latter terminates. -/
def solve {S M : Type} (G : GameDef S M) [DecidableEq S] (fuel : Nat) (g : S)
    (t : Table S) : Option (Int × Table S) :=
  let mn := G.min_score g
  let mx := wrap32 (u32_as_i32 (G.max_score g) + 1)
  solveLoop G fuel ((mx - mn).toNat + 1) g t mn mx

/-- The iterator body of `move_scores` in `src/lib.rs` (lines 181-192): for each
move, clone the state, apply the move, solve the child with the shared table,
and yield the pair of the move and the negated value. -/
def moveScoresGo {S M : Type} (G : GameDef S M)
    (solveFn : S → Table S → Option (Int × Table S)) (g : S) :
    List M → Table S → Option (List (M × Int) × Table S)
  | [], t => some ([], t)
  | m :: ms, t =>
    match solveFn (G.make_move g m).1 t with
    | none => none
    | some (v, t2) =>
      match moveScoresGo G solveFn g ms t2 with
      | none => none
      | some (l, tf) => some ((m, -v) :: l, tf)

/-- `move_scores` from `src/lib.rs`: one `(move, score)` pair per element of
`possible_moves()`, in order, scores negated to the mover's perspective. -/
def move_scores {S M : Type} (G : GameDef S M) [DecidableEq S] (fuel : Nat)
    (g : S) (t : Table S) : Option (List (M × Int) × Table S) :=
  moveScoresGo G (solve G fuel) g (G.possible_moves g) t

/-- Maximum over the child values of the non-winning recursion case of the
reference minimax: `none` if any child fails (or the list is empty). -/
def minimaxKids {S M : Type} (G : GameDef S M) (rec : S → Option Int) (g : S) :
    List M → Option Int
  | [] => none
  | m :: ms =>
    match rec (G.make_move g m).1 with
    | none => none
    | some v =>
      match ms, minimaxKids G rec g ms with
      | [], _ => some (-v)
      | _ :: _, none => none
      | _ :: _, some b => some (max (-v) b)

/-- Modelled from the spec: the unpruned, uncached full minimax (negamax)
traversal that `solve` is claimed to agree with.  It evaluates positions
through the same `Game` operations as the engine — draws score 0, an immediate
winning move ends the game with the resulting position's `score()` — but
explores every child with no window, no cutoff and no table.  `none` on fuel
exhaustion or on a stuck position (no moves, not a draw, no winning move),
which the `Game` contract does not assign a value to. -/
def minimax {S M : Type} (G : GameDef S M) : Nat → S → Option Int
  | 0 => fun _ => none
  | fuel + 1 => fun g =>
    if G.is_draw g then some 0
    else
      match (G.possible_moves g).find? (G.is_winning_move g) with
      | some m => some (u32_as_i32 (G.score (G.make_move g m).1))
      | none => minimaxKids G (minimax G fuel) g (G.possible_moves g)

/-- `g` has game-theoretic value `w`: the reference minimax computes `w` from
`g` with some sufficient fuel. -/
def mval {S M : Type} (G : GameDef S M) (g : S) (w : Int) : Prop :=
  ∃ f, minimax G f g = some w

/-- A sound transposition table: every stored entry is a true upper bound on the
game-theoretic value of the keyed state.  The empty table is trivially sound. -/
def TableSound {S M : Type} (G : GameDef S M) (t : Table S) : Prop :=
  ∀ s b, t s = some b → ∀ f v, minimax G f s = some v → v ≤ b

/-- States the negamax recursion can reach from `g`: `g` itself, and children
of reached non-draw states with no immediate winning move. -/
inductive Reach {S M : Type} (G : GameDef S M) : S → S → Prop where
  | refl (g : S) : Reach G g g
  | step {g s : S} (m : M) (h : Reach G g s) (hd : G.is_draw s = false)
      (hw : (G.possible_moves s).find? (G.is_winning_move s) = none)
      (hm : m ∈ G.possible_moves s) : Reach G g ((G.make_move s m).1)

/-- The `Nim` struct from `crates/games/src/nim/mod.rs`. -/
structure Nim where
  heaps : List Nat
  move_count : Nat
  max_score : Nat
deriving DecidableEq

/-- `Nim::new` from `crates/games/src/nim/mod.rs`: zero moves made, `max_score`
the sum of all the heaps. -/
def Nim.new (heaps : List Nat) : Nim :=
  { heaps := heaps, move_count := 0, max_score := heaps.sum }

/-- `Nim::make_move` (lines 56-71): reject out-of-bounds heap indices and
removals larger than the heap; otherwise subtract and bump the move count. -/
def Nim.make_move (g : Nim) (m : Nat × Nat) : Nim × Bool :=
  if m.1 ≥ g.heaps.length then (g, false)
  else if m.2 > g.heaps.getD m.1 0 then (g, false)
  else (⟨g.heaps.set m.1 (g.heaps.getD m.1 0 - m.2), g.move_count + 1, g.max_score⟩, true)

/-- The nested loops of `Nim::possible_moves` (lines 73-84): for each heap `i`
holding `heap` objects, the moves `(i, 1) .. (i, heap)` in order. -/
def nimMovesFrom : List Nat → Nat → List (Nat × Nat)
  | [], _ => []
  | h :: hs, i => ((List.range h).map (fun j => (i, j + 1))) ++ nimMovesFrom hs (i + 1)

/-- `Nim::possible_moves` from `crates/games/src/nim/mod.rs`. -/
def Nim.possible_moves (g : Nim) : List (Nat × Nat) :=
  nimMovesFrom g.heaps 0

/-- `Nim::is_winning_move` (lines 88-97): a move wins iff after applying it (on
a clone) the next player has no possible moves.  The Rust method returns
`Option<Player>`; the engine trait in `src/lib.rs` consumes it as the boolean
used here. -/
def Nim.is_winning_move (g : Nim) (m : Nat × Nat) : Bool :=
  ((g.make_move m).1.possible_moves).isEmpty

/-- Modelled from the spec: `Nim`'s `score()` is missing from the sources (the
Nim file implements a later trait revision without it); the `Game` trait doc in
`src/lib.rs` specifies the score of a position as the size minus the number of
moves, which for Nim is the heap total captured in `max_score` minus
`move_count`. -/
def Nim.score (g : Nim) : Nat := g.max_score - g.move_count

/-- Modelled from the spec: `Nim`'s `min_score()` is missing from the sources;
the spec requires the negative counterpart of `max_score`. -/
def Nim.min_score (g : Nim) : Int := -(g.max_score : Int)

/-- Nim plugged into the engine's `Game` contract.  `max_score()` returns the
struct field; `player()` is move-count parity; Nim is never a draw
(lines 101-103). -/
def nimGame : GameDef Nim (Nat × Nat) :=
  { player := fun g => if g.move_count % 2 == 0 then Player.P1 else Player.P2
    score := Nim.score
    max_score := fun g => g.max_score
    min_score := Nim.min_score
    make_move := Nim.make_move
    possible_moves := Nim.possible_moves
    is_winning_move := Nim.is_winning_move
    is_draw := fun _ => false }

/-- A minimal concrete game used to instantiate engine-level theorems: state
`n` counts remaining tokens, the only move removes one token, the move that
takes the last token wins, every terminal position scores 0. -/
def CountG : GameDef Nat Unit :=
  { player := fun n => if n % 2 == 0 then Player.P1 else Player.P2
    score := fun _ => 0
    max_score := fun n => n
    min_score := fun n => -(n : Int)
    make_move := fun n _ => (n - 1, true)
    possible_moves := fun n => if n == 0 then [] else [()]
    is_winning_move := fun n _ => n == 1
    is_draw := fun _ => false }

/-- A one-state game that is always a draw, used to instantiate the
draw-handling theorem. -/
def DrawG : GameDef Nat Unit :=
  { player := fun _ => Player.P1
    score := fun _ => 0
    max_score := fun _ => 0
    min_score := fun _ => 0
    make_move := fun n _ => (n, true)
    possible_moves := fun _ => []
    is_winning_move := fun _ _ => false
    is_draw := fun _ => true }


theorem u32_as_i32_of_lt {x : Nat} (h : x < 2 ^ 31) : u32_as_i32 x = x := by
  have h32 : x < 2 ^ 32 := by omega
  rw [u32_as_i32, Nat.mod_eq_of_lt h32]
  split
  · rfl
  · omega

theorem wrap32_of_range {x : Int} (h1 : -(2 ^ 31) ≤ x) (h2 : x < 2 ^ 31) : wrap32 x = x := by
  have h : (x + 2 ^ 31) % 2 ^ 32 = x + 2 ^ 31 := Int.emod_eq_of_lt (by omega) (by omega)
  rw [wrap32, h]
  ring

theorem minimaxKids_mono {S M : Type} (G : GameDef S M) (r1 r2 : S → Option Int) (g : S)
    (h : ∀ s v, r1 s = some v → r2 s = some v) :
    ∀ ms w, minimaxKids G r1 g ms = some w → minimaxKids G r2 g ms = some w := by
  intro ms
  induction ms with
  | nil => intro w hw; simp [minimaxKids] at hw
  | cons m ms ih =>
    intro w hw
    rw [minimaxKids] at hw ⊢
    cases hrc : r1 (G.make_move g m).1 with
    | none => rw [hrc] at hw; simp at hw
    | some v =>
      rw [hrc] at hw
      rw [h _ _ hrc]
      cases ms with
      | nil => simpa using hw
      | cons m2 ms2 =>
        cases hks : minimaxKids G r1 g (m2 :: ms2) with
        | none => rw [hks] at hw; simp at hw
        | some b => rw [hks] at hw; rw [ih _ hks]; simpa using hw

theorem minimax_mono {S M : Type} (G : GameDef S M) :
    ∀ f f2 g v, f ≤ f2 → minimax G f g = some v → minimax G f2 g = some v := by
  intro f
  induction f with
  | zero => intro f2 g v _ hv; simp [minimax] at hv
  | succ f ih =>
    intro f2 g v hle hv
    obtain ⟨f2', rfl⟩ : ∃ f2', f2 = f2' + 1 := ⟨f2 - 1, by omega⟩
    simp only [minimax] at hv ⊢
    by_cases hd : G.is_draw g
    · simpa [hd] using hv
    · rw [if_neg hd] at hv ⊢
      cases hfw : (G.possible_moves g).find? (G.is_winning_move g) with
      | some m => rw [hfw] at hv; exact hv
      | none =>
        rw [hfw] at hv
        exact minimaxKids_mono G _ _ g (fun s w hw => ih f2' s w (by omega) hw) _ _ hv

theorem mval_unique {S M : Type} (G : GameDef S M) {g : S} {v w : Int}
    (hv : mval G g v) (hw : mval G g w) : v = w := by
  obtain ⟨f1, h1⟩ := hv
  obtain ⟨f2, h2⟩ := hw
  have e1 := minimax_mono G f1 (max f1 f2) g v (le_max_left _ _) h1
  have e2 := minimax_mono G f2 (max f1 f2) g w (le_max_right _ _) h2
  rw [e1] at e2
  exact Option.some.inj e2

theorem mval_draw {S M : Type} (G : GameDef S M) {g : S} {w : Int}
    (hd : G.is_draw g = true) (hw : mval G g w) : w = 0 := by
  obtain ⟨f, hf⟩ := hw
  cases f with
  | zero => simp [minimax] at hf
  | succ f =>
    simp only [minimax, hd, if_true] at hf
    exact (Option.some.inj hf).symm

theorem mval_win {S M : Type} (G : GameDef S M) {g : S} {w : Int} {m : M}
    (hd : G.is_draw g = false) (hm : (G.possible_moves g).find? (G.is_winning_move g) = some m)
    (hw : mval G g w) : w = u32_as_i32 (G.score (G.make_move g m).1) := by
  obtain ⟨f, hf⟩ := hw
  cases f with
  | zero => simp [minimax] at hf
  | succ f =>
    simp only [minimax, hd, Bool.false_eq_true, if_false, hm] at hf
    exact (Option.some.inj hf).symm

theorem minimaxKids_bound {S M : Type} (G : GameDef S M) (rec : S → Option Int) (g : S) :
    ∀ ms w, minimaxKids G rec g ms = some w →
      (∀ m ∈ ms, ∃ v, rec (G.make_move g m).1 = some v ∧ -v ≤ w) ∧
      (∃ m ∈ ms, ∃ v, rec (G.make_move g m).1 = some v ∧ -v = w) := by
  intro ms
  induction ms with
  | nil => intro w hw; simp [minimaxKids] at hw
  | cons m ms ih =>
    intro w hw
    rw [minimaxKids] at hw
    cases hrc : rec (G.make_move g m).1 with
    | none => rw [hrc] at hw; simp at hw
    | some v =>
      rw [hrc] at hw
      cases ms with
      | nil =>
        simp only [Option.some.injEq] at hw
        refine ⟨?_, ⟨m, by simp, v, hrc, hw⟩⟩
        intro m2 hm2
        simp only [List.mem_singleton] at hm2
        subst hm2
        exact ⟨v, hrc, le_of_eq hw⟩
      | cons m2 ms2 =>
        cases hks : minimaxKids G rec g (m2 :: ms2) with
        | none => rw [hks] at hw; simp at hw
        | some b =>
          rw [hks] at hw
          simp only [Option.some.injEq] at hw
          obtain ⟨hall, mbest, hmem, vb, hvb, hvbw⟩ := ih b hks
          constructor
          · intro m3 hm3
            rcases List.mem_cons.mp hm3 with h3 | h3
            · subst h3; exact ⟨v, hrc, hw ▸ le_max_left _ _⟩
            · obtain ⟨v3, h3a, h3b⟩ := hall m3 h3
              exact ⟨v3, h3a, le_trans h3b (hw ▸ le_max_right _ _)⟩
          · rcases le_total (-v) b with hle | hle
            · exact ⟨mbest, List.mem_cons_of_mem m hmem, vb, hvb, by rw [hvbw, ← hw, max_eq_right hle]⟩
            · exact ⟨m, List.mem_cons_self m _, v, hrc, by rw [← hw, max_eq_left hle]⟩

theorem mval_children {S M : Type} (G : GameDef S M) {g : S} {w : Int}
    (hw : mval G g w) (hd : G.is_draw g = false)
    (hfw : (G.possible_moves g).find? (G.is_winning_move g) = none) :
    (∀ m ∈ G.possible_moves g, ∃ vc, mval G (G.make_move g m).1 vc ∧ -vc ≤ w) ∧
    (∃ m ∈ G.possible_moves g, ∃ vc, mval G (G.make_move g m).1 vc ∧ -vc = w) := by
  obtain ⟨f, hf⟩ := hw
  cases f with
  | zero => simp [minimax] at hf
  | succ f =>
    simp only [minimax, hd, Bool.false_eq_true, if_false, hfw] at hf
    obtain ⟨hall, mbest, hmem, vb, hvb, hvbw⟩ := minimaxKids_bound G (minimax G f) g _ w hf
    constructor
    · intro m hm
      obtain ⟨vc, h1, h2⟩ := hall m hm
      exact ⟨vc, ⟨f, h1⟩, h2⟩
    · exact ⟨mbest, hmem, vb, ⟨f, hvb⟩, hvbw⟩

theorem Reach.trans {S M : Type} (G : GameDef S M) {a b c : S}
    (h1 : Reach G a b) (h2 : Reach G b c) : Reach G a c := by
  induction h2 with
  | refl => exact h1
  | step m h hd hw hm ih => exact Reach.step m ih hd hw hm

theorem negamaxList_cons_eq {S M : Type} (G : GameDef S M) [DecidableEq S]
    (rec : S → Table S → Int → Int → Option (Int × Table S)) (g : S) (m : M) (ms : List M)
    (t : Table S) (alpha beta s : Int) (t2 : Table S)
    (hs : rec (G.make_move g m).1 t (-beta) (-alpha) = some (s, t2)) :
    negamaxList G rec g (m :: ms) t alpha beta =
      if -s ≥ beta then some (beta, t2)
      else negamaxList G rec g ms t2 (if -s > alpha then -s else alpha) beta := by
  rw [negamaxList, hs]

theorem solveLoop_step {S M : Type} (G : GameDef S M) [DecidableEq S] (fuel lf : Nat) (g : S)
    (t : Table S) (alpha beta r : Int) (t2 : Table S) (hab : alpha < beta)
    (hr : negamax G fuel g t (alpha + (beta - alpha) / 2) (alpha + (beta - alpha) / 2 + 1) =
      some (r, t2)) :
    solveLoop G fuel (lf + 1) g t alpha beta =
      if r ≤ alpha + (beta - alpha) / 2 then solveLoop G fuel lf g t2 alpha r
      else solveLoop G fuel lf g t2 r beta := by
  simp only [solveLoop, if_pos hab]
  rw [hr]

theorem negamaxList_total {S M : Type} (G : GameDef S M) [DecidableEq S]
    (rec : S → Table S → Int → Int → Option (Int × Table S)) (g : S) :
    ∀ ms t alpha beta,
      (∀ m ∈ ms, ∀ t2 a2 b2, ∃ res, rec (G.make_move g m).1 t2 a2 b2 = some res) →
      ∃ res, negamaxList G rec g ms t alpha beta = some res := by
  intro ms
  induction ms with
  | nil => intro t alpha beta _; exact ⟨_, rfl⟩
  | cons m ms ih =>
    intro t alpha beta h
    obtain ⟨⟨s, t2⟩, hs⟩ := h m (List.mem_cons_self m ms) t (-beta) (-alpha)
    rw [negamaxList_cons_eq G rec g m ms t alpha beta s t2 hs]
    by_cases hcut : -s ≥ beta
    · exact ⟨_, by rw [if_pos hcut]⟩
    · rw [if_neg hcut]
      exact ih t2 _ beta (fun m2 hm2 => h m2 (List.mem_cons_of_mem m hm2))

theorem negamax_total {S M : Type} (G : GameDef S M) [DecidableEq S] (mu : S → Nat) :
    ∀ fuel g,
      (∀ s m, Reach G g s → G.is_draw s = false →
        (G.possible_moves s).find? (G.is_winning_move s) = none →
        m ∈ G.possible_moves s → mu (G.make_move s m).1 < mu s) →
      mu g < fuel → ∀ t alpha beta, ∃ res, negamax G fuel g t alpha beta = some res := by
  intro fuel
  induction fuel with
  | zero => intro g _ hfuel; omega
  | succ fuel ih =>
    intro g hdec hfuel t alpha beta
    simp only [negamax]
    cases hd : G.is_draw g with
    | true => exact ⟨_, by rw [if_pos rfl]⟩
    | false =>
      rw [if_neg (by simp)]
      cases hfw : (G.possible_moves g).find? (G.is_winning_move g) with
      | some m => exact ⟨_, rfl⟩
      | none =>
        have hchild : ∀ m ∈ G.possible_moves g, ∀ t2 a2 b2,
            ∃ res, negamax G fuel (G.make_move g m).1 t2 a2 b2 = some res := by
          intro m hm t2 a2 b2
          refine ih (G.make_move g m).1 ?_ ?_ t2 a2 b2
          · intro s m2 hr hd2 hw2 hm2
            exact hdec s m2 (Reach.trans G (Reach.step m (Reach.refl g) hd hfw hm) hr) hd2 hw2 hm2
          · exact lt_of_lt_of_le (hdec g m (Reach.refl g) hd hfw hm) (by omega)
        by_cases hb : beta > (t g).getD (u32_as_i32 (G.max_score g))
        · rw [if_pos hb]
          by_cases ha : alpha ≥ (t g).getD (u32_as_i32 (G.max_score g))
          · exact ⟨_, by rw [if_pos ha]⟩
          · rw [if_neg ha]
            exact negamaxList_total G _ g _ t alpha _ hchild
        · rw [if_neg hb]
          exact negamaxList_total G _ g _ t alpha beta hchild

theorem solveLoop_total {S M : Type} (G : GameDef S M) [DecidableEq S] (fuel : Nat) (g : S)
    (hneg : ∀ t2 a2 b2, ∃ res, negamax G fuel g t2 a2 b2 = some res) :
    ∀ lf t alpha beta, (beta - alpha).toNat < lf →
      ∃ res, solveLoop G fuel lf g t alpha beta = some res := by
  intro lf
  induction lf with
  | zero => intro t alpha beta h; omega
  | succ lf ih =>
    intro t alpha beta hlf
    by_cases hab : alpha < beta
    · obtain ⟨⟨r, t2⟩, hr⟩ := hneg t (alpha + (beta - alpha) / 2) (alpha + (beta - alpha) / 2 + 1)
      rw [solveLoop_step G fuel lf g t alpha beta r t2 hab hr]
      have hmed : alpha ≤ alpha + (beta - alpha) / 2 ∧ alpha + (beta - alpha) / 2 < beta := by omega
      by_cases hle : r ≤ alpha + (beta - alpha) / 2
      · rw [if_pos hle]
        exact ih t2 alpha r (by omega)
      · rw [if_neg hle]
        exact ih t2 r beta (by omega)
    · simp only [solveLoop, if_neg hab]
      exact ⟨_, rfl⟩

theorem solve_total {S M : Type} (G : GameDef S M) [DecidableEq S] (mu : S → Nat)
    {fuel : Nat} {g : S}
    (hdec : ∀ s m, Reach G g s → G.is_draw s = false →
      (G.possible_moves s).find? (G.is_winning_move s) = none →
      m ∈ G.possible_moves s → mu (G.make_move s m).1 < mu s)
    (hfuel : mu g < fuel) (t : Table S) : ∃ res, solve G fuel g t = some res := by
  have hneg := fun t2 a2 b2 => negamax_total G mu fuel g hdec hfuel t2 a2 b2
  exact solveLoop_total G fuel g hneg _ t _ _ (by omega)

theorem TableSound.insert_of {S M : Type} {G : GameDef S M} [DecidableEq S] {t : Table S}
    (ht : TableSound G t) {g : S} {a : Int}
    (ha : ∀ f v, minimax G f g = some v → v ≤ a) :
    TableSound G (Table.insert t g a) := by
  intro s b hb f v hv
  by_cases hs : s = g
  · subst hs
    have hb2 : a = b := by simpa [Table.insert] using hb
    subst hb2
    exact ha f v hv
  · simp only [Table.insert, if_neg hs] at hb
    exact ht s b hb f v hv

theorem negamaxList_spec {S M : Type} (G : GameDef S M) [DecidableEq S]
    (rec : S → Table S → Int → Int → Option (Int × Table S)) (g : S)
    (hrec : ∀ m ∈ G.possible_moves g, ∀ t a b, TableSound G t → a < b →
      ∃ r t2, rec (G.make_move g m).1 t a b = some (r, t2) ∧ TableSound G t2 ∧
        ∀ w, mval G (G.make_move g m).1 w →
          (r ≤ a → w ≤ r) ∧ (b ≤ r → r ≤ w) ∧ (a < r → r < b → r = w))
    (hd : G.is_draw g = false)
    (hfw : (G.possible_moves g).find? (G.is_winning_move g) = none) (beta : Int) :
    ∀ ms t alpha, (∀ m ∈ ms, m ∈ G.possible_moves g) → TableSound G t → alpha < beta →
      (∀ w, mval G g w →
        w ≤ alpha ∨ ∃ m ∈ ms, ∃ vc, mval G (G.make_move g m).1 vc ∧ w = -vc) →
      ∃ r t2, negamaxList G rec g ms t alpha beta = some (r, t2) ∧ TableSound G t2 ∧
        alpha ≤ r ∧ r ≤ beta ∧
        ∀ w, mval G g w →
          (r ≤ alpha → w ≤ r) ∧ (beta ≤ r → r ≤ w) ∧ (alpha < r → r < beta → r = w) := by
  intro ms
  induction ms with
  | nil =>
    intro t alpha _ ht hab hcov
    refine ⟨alpha, _, rfl, ?_, le_refl _, le_of_lt hab, ?_⟩
    · refine TableSound.insert_of ht ?_
      intro f v hv
      rcases hcov v ⟨f, hv⟩ with h1 | ⟨m, hm, _⟩
      · exact h1
      · simp at hm
    · intro w hw
      rcases hcov w hw with h1 | ⟨m, hm, _⟩
      · exact ⟨fun _ => h1, fun h2 => by omega, fun h3 _ => by omega⟩
      · simp at hm
  | cons m ms ih =>
    intro t alpha hsub ht hab hcov
    have hmem : m ∈ G.possible_moves g := hsub m (List.mem_cons_self m ms)
    obtain ⟨r', t2, hs, ht2, hcond⟩ := hrec m hmem t (-beta) (-alpha) ht (by omega)
    rw [negamaxList_cons_eq G rec g m ms t alpha beta r' t2 hs]
    by_cases hcut : -r' ≥ beta
    · rw [if_pos hcut]
      refine ⟨beta, t2, rfl, ht2, le_of_lt hab, le_refl _, ?_⟩
      intro w hw
      obtain ⟨hall, _⟩ := mval_children G hw hd hfw
      obtain ⟨vc, hvc, hvcw⟩ := hall m hmem
      have h1 : vc ≤ r' := (hcond vc hvc).1 (by omega)
      exact ⟨fun h2 => by omega, fun _ => by omega, fun _ h3 => by omega⟩
    · rw [if_neg hcut]
      have hab2 : (if -r' > alpha then -r' else alpha) < beta := by split <;> omega
      have halpha2 : alpha ≤ (if -r' > alpha then -r' else alpha) := by split <;> omega
      have hcov2 : ∀ w, mval G g w →
          w ≤ (if -r' > alpha then -r' else alpha) ∨
          ∃ m2 ∈ ms, ∃ vc, mval G (G.make_move g m2).1 vc ∧ w = -vc := by
        intro w hw
        rcases hcov w hw with h1 | ⟨m0, hm0, vc, hvc, hwvc⟩
        · left; omega
        · rcases List.mem_cons.mp hm0 with h0 | h0
          · subst h0
            have hc := hcond vc hvc
            by_cases hge : -alpha ≤ r'
            · have h2 := hc.2.1 hge
              left; omega
            · have h3 := hc.2.2 (by omega) (by omega)
              left
              split <;> omega
          · exact Or.inr ⟨m0, h0, vc, hvc, hwvc⟩
      obtain ⟨r, t3, hrun, ht3, hr1, hr2, hvc3⟩ :=
        ih t2 (if -r' > alpha then -r' else alpha)
          (fun m2 hm2 => hsub m2 (List.mem_cons_of_mem m hm2)) ht2 hab2 hcov2
      refine ⟨r, t3, hrun, ht3, le_trans halpha2 hr1, hr2, ?_⟩
      intro w hw
      obtain ⟨c1, c2, c3⟩ := hvc3 w hw
      refine ⟨fun hra => c1 (le_trans hra halpha2), c2, ?_⟩
      intro hra hrb
      by_cases hnew : (if -r' > alpha then -r' else alpha) < r
      · exact c3 hnew hrb
      · have hreq : r = (if -r' > alpha then -r' else alpha) := le_antisymm (not_lt.mp hnew) hr1
        have hx : -r' > alpha := by
          by_contra hx
          rw [if_neg hx] at hreq
          omega
        rw [if_pos hx] at hreq
        obtain ⟨hall, _⟩ := mval_children G hw hd hfw
        obtain ⟨vc, hvc, hvcw⟩ := hall m hmem
        have hex : r' = vc := (hcond vc hvc).2.2 (by omega) (by omega)
        have hwle : w ≤ r := c1 (by rw [hreq, if_pos hx])
        omega

theorem negamax_spec {S M : Type} (G : GameDef S M) [DecidableEq S] (mu : S → Nat) :
    ∀ fuel g,
      (∀ s m, Reach G g s → G.is_draw s = false →
        (G.possible_moves s).find? (G.is_winning_move s) = none →
        m ∈ G.possible_moves s → mu (G.make_move s m).1 < mu s) →
      (∀ s, Reach G g s → G.is_draw s = false →
        (G.possible_moves s).find? (G.is_winning_move s) = none →
        ∀ f v, minimax G f s = some v → v ≤ u32_as_i32 (G.max_score s)) →
      mu g < fuel →
      ∀ t alpha beta, TableSound G t → alpha < beta →
      ∃ r t2, negamax G fuel g t alpha beta = some (r, t2) ∧ TableSound G t2 ∧
        ∀ w, mval G g w →
          (r ≤ alpha → w ≤ r) ∧ (beta ≤ r → r ≤ w) ∧ (alpha < r → r < beta → r = w) := by
  intro fuel
  induction fuel with
  | zero => intro g _ _ hfuel; omega
  | succ fuel ih =>
    intro g hdec hbound hfuel t alpha beta ht hab
    simp only [negamax]
    cases hd : G.is_draw g with
    | true =>
      refine ⟨0, t, by rw [if_pos rfl], ht, ?_⟩
      intro w hw
      have hw0 : w = 0 := mval_draw G hd hw
      exact ⟨fun _ => by omega, fun _ => by omega, fun _ _ => by omega⟩
    | false =>
      rw [if_neg (by simp)]
      cases hfw : (G.possible_moves g).find? (G.is_winning_move g) with
      | some m =>
        refine ⟨u32_as_i32 (G.score (G.make_move g m).1), t, rfl, ht, ?_⟩
        intro w hw
        have hww : w = u32_as_i32 (G.score (G.make_move g m).1) := mval_win G hd hfw hw
        exact ⟨fun _ => by omega, fun _ => by omega, fun _ _ => by omega⟩
      | none =>
        have hmx : ∀ w, mval G g w → w ≤ (t g).getD (u32_as_i32 (G.max_score g)) := by
          intro w hw
          obtain ⟨f, hf⟩ := hw
          cases htg : t g with
          | none => simpa [htg] using hbound g (Reach.refl g) hd hfw f w hf
          | some b => simpa [htg] using ht g b htg f w hf
        have hrec : ∀ m ∈ G.possible_moves g, ∀ t2 a2 b2, TableSound G t2 → a2 < b2 →
            ∃ r t3, negamax G fuel (G.make_move g m).1 t2 a2 b2 = some (r, t3) ∧
              TableSound G t3 ∧
              ∀ w, mval G (G.make_move g m).1 w →
                (r ≤ a2 → w ≤ r) ∧ (b2 ≤ r → r ≤ w) ∧ (a2 < r → r < b2 → r = w) := by
          intro m hm t2 a2 b2 ht2 hab2
          refine ih (G.make_move g m).1 ?_ ?_ ?_ t2 a2 b2 ht2 hab2
          · intro s m2 hr hd2 hw2 hm2
            exact hdec s m2 (Reach.trans G (Reach.step m (Reach.refl g) hd hfw hm) hr) hd2 hw2 hm2
          · intro s hr hd2 hw2 f v hv
            exact hbound s (Reach.trans G (Reach.step m (Reach.refl g) hd hfw hm) hr) hd2 hw2 f v hv
          · exact lt_of_lt_of_le (hdec g m (Reach.refl g) hd hfw hm) (by omega)
        have hcov : ∀ w, mval G g w →
            w ≤ alpha ∨ ∃ m ∈ G.possible_moves g, ∃ vc,
              mval G (G.make_move g m).1 vc ∧ w = -vc := by
          intro w hw
          obtain ⟨_, mb, hmb, vc, hvc, hvcw⟩ := mval_children G hw hd hfw
          exact Or.inr ⟨mb, hmb, vc, hvc, hvcw.symm⟩
        by_cases hb : beta > (t g).getD (u32_as_i32 (G.max_score g))
        · rw [if_pos hb]
          by_cases ha : alpha ≥ (t g).getD (u32_as_i32 (G.max_score g))
          · rw [if_pos ha]
            refine ⟨(t g).getD (u32_as_i32 (G.max_score g)), t, rfl, ht, ?_⟩
            intro w hw
            have h1 := hmx w hw
            exact ⟨fun _ => h1, fun h2 => by omega, fun h3 _ => by omega⟩
          · rw [if_neg ha]
            obtain ⟨r, t2, hrun, ht2, hr1, hr2, hcond⟩ :=
              negamaxList_spec G (negamax G fuel) g hrec hd hfw
                ((t g).getD (u32_as_i32 (G.max_score g))) (G.possible_moves g) t alpha
                (fun m2 hm2 => hm2) ht (by omega) hcov
            refine ⟨r, t2, hrun, ht2, ?_⟩
            intro w hw
            obtain ⟨c1, c2, c3⟩ := hcond w hw
            have h1 := hmx w hw
            refine ⟨c1, fun h2 => by omega, ?_⟩
            intro hra hrb
            by_cases hrm : r < (t g).getD (u32_as_i32 (G.max_score g))
            · exact c3 hra hrm
            · have : r = (t g).getD (u32_as_i32 (G.max_score g)) :=
                le_antisymm hr2 (not_lt.mp hrm)
              have h3 := c2 (le_of_eq this.symm)
              omega
        · rw [if_neg hb]
          obtain ⟨r, t2, hrun, ht2, hr1, hr2, hcond⟩ :=
            negamaxList_spec G (negamax G fuel) g hrec hd hfw beta (G.possible_moves g) t alpha
              (fun m2 hm2 => hm2) ht hab hcov
          exact ⟨r, t2, hrun, ht2, hcond⟩

theorem solveLoop_spec {S M : Type} (G : GameDef S M) [DecidableEq S] (fuel : Nat) (g : S)
    (hneg : ∀ t a b, TableSound G t → a < b →
      ∃ r t2, negamax G fuel g t a b = some (r, t2) ∧ TableSound G t2 ∧
        ∀ w, mval G g w → (r ≤ a → w ≤ r) ∧ (b ≤ r → r ≤ w) ∧ (a < r → r < b → r = w))
    (w : Int) (hw : mval G g w) :
    ∀ lf t alpha beta, (beta - alpha).toNat < lf → TableSound G t →
      alpha ≤ w → w ≤ beta →
      ∃ t2, solveLoop G fuel lf g t alpha beta = some (w, t2) ∧ TableSound G t2 := by
  intro lf
  induction lf with
  | zero => intro t alpha beta h; omega
  | succ lf ih =>
    intro t alpha beta hlf ht halw hwb
    by_cases hab : alpha < beta
    · obtain ⟨r, t2, hr, ht2, hcond⟩ :=
        hneg t (alpha + (beta - alpha) / 2) (alpha + (beta - alpha) / 2 + 1) ht (by omega)
      rw [solveLoop_step G fuel lf g t alpha beta r t2 hab hr]
      have hmed : alpha ≤ alpha + (beta - alpha) / 2 ∧ alpha + (beta - alpha) / 2 < beta := by
        omega
      obtain ⟨c1, c2, c3⟩ := hcond w hw
      by_cases hle : r ≤ alpha + (beta - alpha) / 2
      · rw [if_pos hle]
        exact ih t2 alpha r (by omega) ht2 halw (c1 hle)
      · rw [if_neg hle]
        exact ih t2 r beta (by omega) ht2 (c2 (by omega)) hwb
    · have heq : alpha = w := by omega
      subst heq
      exact ⟨t, by simp only [solveLoop, if_neg hab], ht⟩

theorem solve_spec {S M : Type} (G : GameDef S M) [DecidableEq S] (mu : S → Nat)
    {fuel : Nat} {g : S} {w : Int}
    (hdec : ∀ s m, Reach G g s → G.is_draw s = false →
      (G.possible_moves s).find? (G.is_winning_move s) = none →
      m ∈ G.possible_moves s → mu (G.make_move s m).1 < mu s)
    (hbound : ∀ s, Reach G g s → G.is_draw s = false →
      (G.possible_moves s).find? (G.is_winning_move s) = none →
      ∀ f v, minimax G f s = some v → v ≤ u32_as_i32 (G.max_score s))
    (hfuel : mu g < fuel) (hw : mval G g w) (hwlb : G.min_score g ≤ w)
    (hwub : w ≤ u32_as_i32 (G.max_score g)) (hms : G.max_score g ≤ 2 ^ 31 - 2)
    (t : Table S) (ht : TableSound G t) :
    ∃ t2, solve G fuel g t = some (w, t2) ∧ TableSound G t2 := by
  have hcast : u32_as_i32 (G.max_score g) = (G.max_score g : Int) :=
    u32_as_i32_of_lt (by omega)
  have hwrap : wrap32 (u32_as_i32 (G.max_score g) + 1) = (G.max_score g : Int) + 1 := by
    rw [hcast]
    exact wrap32_of_range (by omega) (by push_cast; omega)
  simp only [solve, hwrap]
  exact solveLoop_spec G fuel g
    (fun t2 a b ht2 hab => negamax_spec G mu fuel g hdec hbound hfuel t2 a b ht2 hab)
    w hw _ t _ _ (by omega) ht hwlb (by omega)

theorem moveScoresGo_fst {S M : Type} (G : GameDef S M)
    (solveFn : S → Table S → Option (Int × Table S)) (g : S) :
    ∀ ms t l tf, moveScoresGo G solveFn g ms t = some (l, tf) → l.map Prod.fst = ms := by
  intro ms
  induction ms with
  | nil =>
    intro t l tf h
    rw [moveScoresGo] at h
    cases h
    rfl
  | cons m ms ih =>
    intro t l tf h
    cases hs : solveFn (G.make_move g m).1 t with
    | none => simp [moveScoresGo, hs] at h
    | some p =>
      obtain ⟨v, t2⟩ := p
      cases hgo : moveScoresGo G solveFn g ms t2 with
      | none => simp [moveScoresGo, hs, hgo] at h
      | some q =>
        obtain ⟨l2, tf2⟩ := q
        simp only [moveScoresGo, hs, hgo, Option.some.injEq, Prod.mk.injEq] at h
        obtain ⟨h1, h2⟩ := h
        subst h1
        simp [ih t2 l2 tf2 hgo]

theorem moveScoresGo_vals {S M : Type} (G : GameDef S M) [DecidableEq S] (fuel : Nat) (g : S) :
    ∀ ms t, TableSound G t →
      (∀ m ∈ ms, ∃ w, ∀ t2, TableSound G t2 →
        ∃ t3, solve G fuel (G.make_move g m).1 t2 = some (w, t3) ∧ TableSound G t3) →
      ∃ l tf, moveScoresGo G (solve G fuel) g ms t = some (l, tf) ∧ TableSound G tf ∧
        ∀ p ∈ l, ∃ w, p.2 = -w ∧
          ∀ t2, TableSound G t2 → ∃ t3, solve G fuel (G.make_move g p.1).1 t2 = some (w, t3) := by
  intro ms
  induction ms with
  | nil => intro t ht _; exact ⟨[], t, rfl, ht, by simp⟩
  | cons m ms ih =>
    intro t ht hch
    obtain ⟨w, hwall⟩ := hch m (List.mem_cons_self m ms)
    obtain ⟨t2, hs, ht2⟩ := hwall t ht
    obtain ⟨l2, tf, hgo, htf, hvals⟩ := ih t2 ht2 (fun m2 hm2 => hch m2 (List.mem_cons_of_mem m hm2))
    refine ⟨(m, -w) :: l2, tf, ?_, htf, ?_⟩
    · simp only [moveScoresGo, hs, hgo]
    · intro p hp
      rcases List.mem_cons.mp hp with h | h
      · subst h
        exact ⟨w, rfl, fun t3 ht3 => ((hwall t3 ht3).imp (fun t4 h4 => h4.1))⟩
      · exact hvals p h

theorem tableSound_empty {S M : Type} (G : GameDef S M) : TableSound G Table.empty :=
  fun s b hb => by simp [Table.empty] at hb

/-- Modelled from the spec: contract obligations the spec places on a `Game`
implementation, relative to a root state `g` with game-theoretic value `w` and
a remaining-move-count measure `mu`: the value exists (the game is finite with
no stuck positions in the search tree), the value lies inside
`[min_score, max_score]`, `max_score` does not overflow `i32`, every move
strictly decreases the measure, and every searched position's value is bounded
by its `max_score` (the bound the transposition-table default relies on). -/
def ContractHyps {S M : Type} (G : GameDef S M) (mu : S → Nat) (g : S) (w : Int) : Prop :=
  mval G g w ∧ G.min_score g ≤ w ∧ w ≤ u32_as_i32 (G.max_score g) ∧
  G.max_score g ≤ 2 ^ 31 - 2 ∧
  (∀ s m, Reach G g s → G.is_draw s = false →
    (G.possible_moves s).find? (G.is_winning_move s) = none →
    m ∈ G.possible_moves s → mu (G.make_move s m).1 < mu s) ∧
  (∀ s, Reach G g s → G.is_draw s = false →
    (G.possible_moves s).find? (G.is_winning_move s) = none →
    ∀ f v, minimax G f s = some v → v ≤ u32_as_i32 (G.max_score s))

theorem solve_spec_of_contract {S M : Type} (G : GameDef S M) [DecidableEq S] (mu : S → Nat)
    {fuel : Nat} {g : S} {w : Int} (h : ContractHyps G mu g w) (hfuel : mu g < fuel)
    (t : Table S) (ht : TableSound G t) :
    ∃ t2, solve G fuel g t = some (w, t2) ∧ TableSound G t2 := by
  obtain ⟨hw, hwlb, hwub, hms, hdec, hbound⟩ := h
  exact solve_spec G mu hdec hbound hfuel hw hwlb hwub hms t ht

theorem countg_minimax_zero : ∀ f s v, minimax CountG f s = some v → v = 0 := by
  intro f
  induction f with
  | zero => intro s v h; simp [minimax] at h
  | succ f ih =>
    intro s v h
    simp only [minimax] at h
    rw [if_neg (by simp [CountG])] at h
    cases hfw : (CountG.possible_moves s).find? (CountG.is_winning_move s) with
    | some m =>
      rw [hfw] at h
      have h2 := (Option.some.inj h).symm
      rw [h2]
      rfl
    | none =>
      rw [hfw] at h
      by_cases h0 : s = 0
      · subst h0
        simp [CountG, minimaxKids] at h
      · have hmv : CountG.possible_moves s = [()] := by
          simp only [CountG]
          rw [if_neg (by simpa using h0)]
        rw [hmv, minimaxKids] at h
        cases hc : minimax CountG f (CountG.make_move s ()).1 with
        | none => rw [hc] at h; simp at h
        | some v1 =>
          rw [hc] at h
          have h2 := Option.some.inj h
          have h3 := ih _ _ hc
          omega

theorem countg_reach_le : ∀ n s, Reach CountG n s → s ≤ n := by
  intro n s h
  induction h with
  | refl => exact le_refl n
  | step m h hd hw hm ih =>
    show (CountG.make_move _ m).1 ≤ n
    simp only [CountG]
    omega

theorem minimax_succ_eq {S M : Type} (G : GameDef S M) (f : Nat) (g : S) :
    minimax G (f + 1) g =
      (if G.is_draw g then some 0
      else
        match (G.possible_moves g).find? (G.is_winning_move g) with
        | some m => some (u32_as_i32 (G.score (G.make_move g m).1))
        | none => minimaxKids G (minimax G f) g (G.possible_moves g)) := rfl

theorem countg_minimax_some : ∀ n, 1 ≤ n → minimax CountG (n + 1) n = some 0 := by
  intro n
  induction n with
  | zero => intro h; omega
  | succ n ih =>
    intro _
    by_cases h1 : n = 0
    · subst h1; decide
    · have hih := ih (by omega)
      rw [minimax_succ_eq]
      rw [if_neg (by simp [CountG])]
      have hmv : CountG.possible_moves (n + 1) = [()] := by
        simp only [CountG]
        rw [if_neg (by simp)]
      have hfw : (CountG.possible_moves (n + 1)).find? (CountG.is_winning_move (n + 1)) =
          none := by
        rw [hmv]
        have hwin : CountG.is_winning_move (n + 1) () = false := by
          simp only [CountG]
          simpa using h1
        simp [List.find?, hwin]
      rw [hfw, hmv, minimaxKids]
      have hchild : (CountG.make_move (n + 1) ()).1 = n := by simp [CountG]
      rw [hchild, hih]
      simp

theorem countg_contract : ∀ n, 1 ≤ n → n ≤ 2 ^ 31 - 2 → ContractHyps CountG id n 0 := by
  intro n h1 h2
  refine ⟨⟨n + 1, countg_minimax_some n h1⟩, ?_, ?_, h2, ?_, ?_⟩
  · show -(n : Int) ≤ 0
    omega
  · show (0 : Int) ≤ u32_as_i32 n
    rw [u32_as_i32_of_lt (by omega)]
    omega
  · intro s m _ hd hw hm
    show (CountG.make_move s m).1 < s
    by_cases h0 : s = 0
    · subst h0; simp [CountG] at hm
    · simp only [CountG]; omega
  · intro s hr _ _ f v hv
    have h0 := countg_minimax_zero f s v hv
    have hle := countg_reach_le n s hr
    have hc : u32_as_i32 (CountG.max_score s) = (s : Int) :=
      u32_as_i32_of_lt (by simp only [CountG]; omega)
    rw [hc]
    omega

theorem nimMovesFrom_mem : ∀ (hs : List Nat) (i : Nat) (m : Nat × Nat),
    m ∈ nimMovesFrom hs i ↔
    ∃ k, k < hs.length ∧ m.1 = i + k ∧ 1 ≤ m.2 ∧ m.2 ≤ hs.getD k 0 := by
  intro hs
  induction hs with
  | nil => simp [nimMovesFrom]
  | cons h hs ih =>
    intro i m
    simp only [nimMovesFrom, List.mem_append, List.mem_map, List.mem_range, ih]
    have hg0 : (h :: hs).getD 0 0 = h := rfl
    have hgs : ∀ k, (h :: hs).getD (k + 1) 0 = hs.getD k 0 := fun k => rfl
    constructor
    · rintro (⟨j, hj, rfl⟩ | ⟨k, hk, h1, h2, h3⟩)
      · exact ⟨0, by simp, by simp, by simp, by rw [hg0]; simpa using hj⟩
      · exact ⟨k + 1, by simp only [List.length_cons]; omega, by omega, h2, by rw [hgs]; exact h3⟩
    · rintro ⟨k, hk, h1, h2, h3⟩
      cases k with
      | zero =>
        left
        rw [hg0] at h3
        refine ⟨m.2 - 1, by omega, ?_⟩
        have hm : m = (m.1, m.2) := rfl
        rw [hm]
        simp only [Nat.add_zero] at h1
        rw [h1]
        have h4 : m.2 - 1 + 1 = m.2 := by omega
        rw [h4]
      | succ k =>
        right
        rw [hgs] at h3
        exact ⟨k, by simp only [List.length_cons] at hk; omega, by omega, h2, h3⟩

theorem nim_mem_possible_moves (g : Nim) (m : Nat × Nat) :
    m ∈ g.possible_moves ↔
    m.1 < g.heaps.length ∧ 1 ≤ m.2 ∧ m.2 ≤ g.heaps.getD m.1 0 := by
  rw [Nim.possible_moves, nimMovesFrom_mem]
  constructor
  · rintro ⟨k, hk, h1, h2, h3⟩
    have hk1 : m.1 = k := by omega
    exact ⟨by omega, h2, by rwa [hk1]⟩
  · rintro ⟨h1, h2, h3⟩
    exact ⟨m.1, h1, by omega, h2, h3⟩

/-- C1: for every finite game state `g` satisfying the `Game` contract (value
`w` computed by the unpruned, uncached reference `minimax`, scores within
`[min_score, max_score]`, no `i32` overflow, moves strictly decreasing a
measure `mu`, searched values bounded by `max_score`) and a fresh (empty)
transposition table, `solve` returns exactly `w` — the exact game-theoretic
value of the position from the perspective of the player to move. -/
theorem solve_eq_minimax {S M : Type} (G : GameDef S M) [DecidableEq S] (mu : S → Nat)
    (g : S) (w : Int) (fuel : Nat) (h : ContractHyps G mu g w) (hfuel : mu g < fuel) :
    (solve G fuel g Table.empty).map Prod.fst = some w := by
  obtain ⟨t2, hs, _⟩ := solve_spec_of_contract G mu h hfuel Table.empty (tableSound_empty G)
  rw [hs]
  rfl

/-- Witness for C1: the counting game with 2 tokens has minimax value 0 and
`solve` returns it from a fresh table. -/
theorem solve_eq_minimax_witness : (solve CountG 3 2 Table.empty).map Prod.fst = some 0 :=
  solve_eq_minimax CountG id 2 0 3 (countg_contract 2 (by norm_num) (by norm_num)) (by norm_num)

/-- C2 counterexample: with a pre-existing false entry (the table claims the
position with 2 tokens is worth at most -5), `solve` returns a different value
than with a fresh table, refuting the claim that arbitrary pre-existing entries
never change the final answer. -/
theorem solve_table_dependent_cex :
    (solve CountG 3 2 (Table.insert Table.empty 2 (-5))).map Prod.fst ≠
      (solve CountG 3 2 Table.empty).map Prod.fst := by decide

/-- C2 (amended): for every table `t` whose pre-existing entries are all true
upper bounds on the keyed position's value (`TableSound`, which holds for
incomplete tables and tables learned in prior sound searches, but not for
arbitrary false entries), `solve(g, t)` returns the same value as
`solve(g, empty_table)`: a sound table is consulted only as an upper-bound
hint and never changes the final answer. -/
theorem solve_sound_table_agrees {S M : Type} (G : GameDef S M) [DecidableEq S] (mu : S → Nat)
    (g : S) (w : Int) (fuel : Nat) (h : ContractHyps G mu g w) (hfuel : mu g < fuel)
    (t : Table S) (ht : TableSound G t) :
    (solve G fuel g t).map Prod.fst = (solve G fuel g Table.empty).map Prod.fst := by
  obtain ⟨t2, hs, _⟩ := solve_spec_of_contract G mu h hfuel t ht
  obtain ⟨t3, hs2, _⟩ := solve_spec_of_contract G mu h hfuel Table.empty (tableSound_empty G)
  rw [hs, hs2]
  rfl

/-- Witness for C2 (amended): a sound pre-existing entry (position 1 bounded
by its true value 0) does not change the answer of `solve` on the counting
game with 2 tokens. -/
theorem solve_sound_table_agrees_witness :
    (solve CountG 3 2 (Table.insert Table.empty 1 0)).map Prod.fst =
      (solve CountG 3 2 Table.empty).map Prod.fst :=
  solve_sound_table_agrees CountG id 2 0 3 (countg_contract 2 (by norm_num) (by norm_num))
    (by norm_num) (Table.insert Table.empty 1 0)
    (by
      intro s b hb f v hv
      by_cases h1 : s = 1
      · subst h1
        have hb2 : (0 : Int) = b := by simpa [Table.insert] using hb
        rw [countg_minimax_zero f 1 v hv]
        omega
      · simp [Table.insert, Table.empty, h1] at hb)

/-- C4: two calls of `solve` on the same state with independently fresh
(empty) transposition tables return the same value — `solve` is deterministic
across runs. -/
theorem solve_deterministic_fresh {S M : Type} (G : GameDef S M) [DecidableEq S] (fuel : Nat)
    (g : S) (t1 t2 : Table S) (h1 : ∀ s, t1 s = none) (h2 : ∀ s, t2 s = none) :
    solve G fuel g t1 = solve G fuel g t2 := by
  have h : t1 = t2 := funext (fun s => (h1 s).trans (h2 s).symm)
  rw [h]

/-- Witness for C4 at the counting game with two (syntactically distinct)
empty tables. -/
theorem solve_deterministic_fresh_witness :
    solve CountG 3 2 Table.empty = solve CountG 3 2 (fun _ => none) :=
  solve_deterministic_fresh CountG 3 2 Table.empty (fun _ => none)
    (fun _ => rfl) (fun _ => rfl)

/-- C6: on a draw position, `negamax` returns 0 immediately and leaves the
transposition table completely unchanged (draw positions are never inserted
into the table). -/
theorem negamax_draw_zero {S M : Type} (G : GameDef S M) [DecidableEq S] (fuel : Nat)
    (g : S) (t : Table S) (alpha beta : Int) (hd : G.is_draw g = true) (hfuel : 0 < fuel) :
    negamax G fuel g t alpha beta = some (0, t) := by
  obtain ⟨f, rfl⟩ : ∃ f, fuel = f + 1 := ⟨fuel - 1, by omega⟩
  simp [negamax, hd]

/-- Witness for C6 at the always-draw game: score 0 and the same table. -/
theorem negamax_draw_zero_witness :
    negamax DrawG 1 0 Table.empty 0 1 = some (0, Table.empty) :=
  negamax_draw_zero DrawG 1 0 Table.empty 0 1 rfl (by norm_num)

/-- C7: for every finite game (every move strictly decreases the
remaining-move measure `mu`), `negamax` terminates with recursion depth
bounded by `mu g + 1` fuel and the null-window refinement loop in `solve`
terminates, for every table and window. -/
theorem negamax_solve_total {S M : Type} (G : GameDef S M) [DecidableEq S] (mu : S → Nat)
    (fuel : Nat) (g : S)
    (hdec : ∀ s m, Reach G g s → G.is_draw s = false →
      (G.possible_moves s).find? (G.is_winning_move s) = none →
      m ∈ G.possible_moves s → mu (G.make_move s m).1 < mu s)
    (hfuel : mu g < fuel) :
    (∀ t alpha beta, ∃ res, negamax G fuel g t alpha beta = some res) ∧
    (∀ t, ∃ res, solve G fuel g t = some res) :=
  ⟨fun t alpha beta => negamax_total G mu fuel g hdec hfuel t alpha beta,
   fun t => solve_total G mu hdec hfuel t⟩

/-- Witness for C7 at the counting game with 2 tokens. -/
theorem negamax_solve_total_witness :
    (∃ res, negamax CountG 3 2 Table.empty 0 1 = some res) ∧
    (∃ res, solve CountG 3 2 Table.empty = some res) := by
  have h := negamax_solve_total CountG id 3 2
    (by
      intro s m _ hd hw hm
      show (CountG.make_move s m).1 < s
      by_cases h0 : s = 0
      · subst h0; simp [CountG] at hm
      · simp only [CountG]; omega)
    (by norm_num)
  exact ⟨h.1 Table.empty 0 1, h.2 Table.empty⟩

/-- C8: `move_scores(g, t)` yields exactly one `(move, score)` pair per element
of `possible_moves()` of `g`, in the same order: the first projections of the
output are exactly `possible_moves()`. -/
theorem move_scores_align {S M : Type} (G : GameDef S M) [DecidableEq S] (fuel : Nat)
    (g : S) (t : Table S) (l : List (M × Int)) (tf : Table S)
    (h : move_scores G fuel g t = some (l, tf)) :
    l.map Prod.fst = G.possible_moves g :=
  moveScoresGo_fst G (solve G fuel) g (G.possible_moves g) t l tf h

/-- Witness for C8: on Nim with heap `[1]` the single yielded move is exactly
the single possible move. -/
theorem move_scores_align_witness :
    ∃ l tf, move_scores nimGame 2 (Nim.new [1]) Table.empty = some (l, tf) ∧
      l.map Prod.fst = nimGame.possible_moves (Nim.new [1]) := by
  obtain ⟨⟨l, tf⟩, hl⟩ : ∃ p, move_scores nimGame 2 (Nim.new [1]) Table.empty = some p :=
    ⟨_, rfl⟩
  exact ⟨l, tf, hl, move_scores_align nimGame 2 (Nim.new [1]) Table.empty l tf hl⟩

/-- C3: every pair `(m, s)` yielded by `move_scores(g, t)` satisfies
`s = -solve(g2, t)` where `g2` is `g` with `m` applied — stated against the
original table `t`, which requires `t` to be sound and each child position to
satisfy the `Game` contract (under those hypotheses the solved value is
independent of the sound table supplied). -/
theorem move_scores_neg_solve {S M : Type} (G : GameDef S M) [DecidableEq S] (fuel : Nat)
    (g : S) (t : Table S) (ht : TableSound G t)
    (hch : ∀ m ∈ G.possible_moves g, ∃ mu w, ContractHyps G mu (G.make_move g m).1 w ∧
      mu (G.make_move g m).1 < fuel) :
    ∃ l tf, move_scores G fuel g t = some (l, tf) ∧
      ∀ p ∈ l, ∃ t3, solve G fuel (G.make_move g p.1).1 t = some (-p.2, t3) := by
  have hch2 : ∀ m ∈ G.possible_moves g, ∃ w, ∀ t2, TableSound G t2 →
      ∃ t3, solve G fuel (G.make_move g m).1 t2 = some (w, t3) ∧ TableSound G t3 := by
    intro m hm
    obtain ⟨mu, w, hc, hf⟩ := hch m hm
    exact ⟨w, fun t2 ht2 => solve_spec_of_contract G mu hc hf t2 ht2⟩
  obtain ⟨l, tf, hgo, htf, hvals⟩ := moveScoresGo_vals G fuel g (G.possible_moves g) t ht hch2
  refine ⟨l, tf, hgo, ?_⟩
  intro p hp
  obtain ⟨w, hpw, hsolve⟩ := hvals p hp
  obtain ⟨t3, h3⟩ := hsolve t ht
  refine ⟨t3, ?_⟩
  rw [hpw, neg_neg]
  exact h3

/-- Witness for C3 at the counting game with 2 tokens: the single yielded pair
scores the child via `solve` on the original (empty) table. -/
theorem move_scores_neg_solve_witness :
    ∃ l tf, move_scores CountG 3 2 Table.empty = some (l, tf) ∧
      ∀ p ∈ l, ∃ t3, solve CountG 3 (CountG.make_move 2 p.1).1 Table.empty =
        some (-p.2, t3) :=
  move_scores_neg_solve CountG 3 2 Table.empty (tableSound_empty CountG)
    (fun m _ => ⟨id, 0, countg_contract 1 (by norm_num) (by norm_num), by simp [CountG]⟩)

/-- C5 counterexample: on Nim with heap `[1]`, the zero-amount move `(0, 0)` is
not among `possible_moves()`, yet `make_move` applies it (returns `true`) and
mutates the state (the move count increases), refuting both the
"returns true iff legal" and the "illegal moves are a no-op" parts. -/
theorem nim_make_move_cex :
    ((Nim.new [1]).make_move (0, 0)).2 = true ∧
    (0, 0) ∉ (Nim.new [1]).possible_moves ∧
    ((Nim.new [1]).make_move (0, 0)).1 ≠ Nim.new [1] := by decide

/-- C5 (amended): `Nim::make_move` applies the move and returns `true` iff the
heap index is in bounds and the amount does not exceed that heap — a strictly
weaker test than membership in `possible_moves()`, which additionally requires
the amount to be at least 1; when `make_move` returns `false` the state is
completely unchanged, and every move of `possible_moves()` is accepted. -/
theorem nim_make_move_spec (g : Nim) (m : Nat × Nat) :
    (((g.make_move m).2 = true) ↔ m.1 < g.heaps.length ∧ m.2 ≤ g.heaps.getD m.1 0) ∧
    ((g.make_move m).2 = false → (g.make_move m).1 = g) ∧
    (m ∈ g.possible_moves ↔
      m.1 < g.heaps.length ∧ 1 ≤ m.2 ∧ m.2 ≤ g.heaps.getD m.1 0) ∧
    (m ∈ g.possible_moves → (g.make_move m).2 = true) := by
  have hmem := nim_mem_possible_moves g m
  refine ⟨?_, ?_, hmem, ?_⟩
  · rw [Nim.make_move]
    by_cases hb : m.1 ≥ g.heaps.length
    · rw [if_pos hb]
      exact iff_of_false (by simp) (by omega)
    · rw [if_neg hb]
      by_cases hc : m.2 > g.heaps.getD m.1 0
      · rw [if_pos hc]
        exact iff_of_false (by simp) (by omega)
      · rw [if_neg hc]
        exact iff_of_true rfl ⟨by omega, by omega⟩
  · rw [Nim.make_move]
    by_cases hb : m.1 ≥ g.heaps.length
    · rw [if_pos hb]
      intro
      rfl
    · rw [if_neg hb]
      by_cases hc : m.2 > g.heaps.getD m.1 0
      · rw [if_pos hc]
        intro
        rfl
      · rw [if_neg hc]
        simp
  · intro hm
    obtain ⟨h1, h2, h3⟩ := hmem.mp hm
    rw [Nim.make_move, if_neg (by omega), if_neg (by omega)]

/-- Witness for C5 (amended): an out-of-range removal on heap `[2]` is rejected
and leaves the state unchanged, while the legal move `(0, 1)` is possible. -/
theorem nim_make_move_spec_witness :
    ((Nim.new [2]).make_move (0, 3)).1 = Nim.new [2] ∧
    (0, 1) ∈ (Nim.new [2]).possible_moves :=
  ⟨(nim_make_move_spec (Nim.new [2]) (0, 3)).2.1 (by decide),
   ((nim_make_move_spec (Nim.new [2]) (0, 1)).2.2.1).mpr (by decide)⟩

/-- C9 counterexample: on Nim created with the single heap `[1]` (with the
spec-modelled score function, score = heap total minus move count), `solve`
with a fresh table returns exactly 0, which is not strictly positive. -/
theorem nim_one_heap_cex :
    (solve nimGame 2 (Nim.new [1]) Table.empty).map Prod.fst = some 0 ∧
    ¬∃ v, (solve nimGame 2 (Nim.new [1]) Table.empty).map Prod.fst = some v ∧ 0 < v := by
  refine ⟨by decide, ?_⟩
  rintro ⟨v, hv, hpos⟩
  rw [show (solve nimGame 2 (Nim.new [1]) Table.empty).map Prod.fst = some 0 by decide] at hv
  cases hv
  exact absurd hpos (by decide)

/-- C9 (amended): on Nim with the single heap `[1]`, `possible_moves()` yields
exactly the one move `(0, 1)`; `solve` on the initial state with a fresh table
returns 0 (not a strictly positive value, because the spec-modelled score of
the terminal position is the heap total minus the moves played, which is 0
here); and `move_scores` yields exactly one pair `((0, 1), s)` with
`s = 1 > 0`. -/
theorem nim_one_heap_spec :
    (Nim.new [1]).possible_moves = [(0, 1)] ∧
    (solve nimGame 2 (Nim.new [1]) Table.empty).map Prod.fst = some 0 ∧
    (move_scores nimGame 2 (Nim.new [1]) Table.empty).map Prod.fst = some [((0, 1), 1)] ∧
    (0 : Int) < 1 := by decide

/-- C10: `score()` and `max_score()` go through the wrapping `u32`-to-`i32`
cast `u32_as_i32` inside `negamax` and `solve`; whenever `max_score()` (and so
every value the search compares against it) is at most `2^31 - 2` the casts are
value-preserving and `solve`'s initial `beta` equals `max_score() + 1` exactly,
with the wrapping `i32` increment not overflowing; for values at or above
`2^31` the cast silently produces wrapped negative numbers. -/
theorem cast_overflow_spec :
    (∀ x : Nat, x ≤ 2 ^ 31 - 2 →
      u32_as_i32 x = (x : Int) ∧ wrap32 (u32_as_i32 x + 1) = (x : Int) + 1) ∧
    (∀ x : Nat, 2 ^ 31 ≤ x → x < 2 ^ 32 → u32_as_i32 x < 0) ∧
    (∀ (S M : Type) (G : GameDef S M) [DecidableEq S] (fuel : Nat) (g : S) (t : Table S),
      G.max_score g ≤ 2 ^ 31 - 2 →
      solve G fuel g t = solveLoop G fuel
        (((G.max_score g : Int) + 1 - G.min_score g).toNat + 1) g t (G.min_score g)
        ((G.max_score g : Int) + 1)) := by
  refine ⟨?_, ?_, ?_⟩
  · intro x hx
    have hc : u32_as_i32 x = (x : Int) := u32_as_i32_of_lt (by omega)
    refine ⟨hc, ?_⟩
    rw [hc]
    exact wrap32_of_range (by omega) (by push_cast; omega)
  · intro x h1 h2
    rw [u32_as_i32, Nat.mod_eq_of_lt h2]
    split
    · omega
    · omega
  · intro S M G inst fuel g t hms
    have hc : u32_as_i32 (G.max_score g) = (G.max_score g : Int) := u32_as_i32_of_lt (by omega)
    have hw : wrap32 (u32_as_i32 (G.max_score g) + 1) = (G.max_score g : Int) + 1 := by
      rw [hc]
      exact wrap32_of_range (by omega) (by push_cast; omega)
    simp only [solve, hw]

/-- Witness for C10: concrete in-range and out-of-range values, and the solver
window on the counting game with 2 tokens. -/
theorem cast_overflow_spec_witness :
    (u32_as_i32 5 = (5 : Int) ∧ wrap32 (u32_as_i32 5 + 1) = (5 : Int) + 1) ∧
    u32_as_i32 (2 ^ 31) < 0 ∧
    solve CountG 3 2 Table.empty = solveLoop CountG 3
      (((CountG.max_score 2 : Int) + 1 - CountG.min_score 2).toNat + 1) 2 Table.empty
      (CountG.min_score 2) ((CountG.max_score 2 : Int) + 1) :=
  ⟨cast_overflow_spec.1 5 (by norm_num),
   cast_overflow_spec.2.1 (2 ^ 31) (le_refl _) (by norm_num),
   cast_overflow_spec.2.2 Nat Unit CountG 3 2 Table.empty (by simp only [CountG]; norm_num)⟩
